import Mathlib

/-!
Verification of the import-rewriting pipeline of `scripts/update.ts`
(the shadcn/ui → Deno packaging adapter).

The pipeline's text rewriting is regex-based JavaScript.  This file embeds the
three regular expressions of `scripts/update.ts` with a small backtracking
matcher over `List Char` whose result list enumerates, in JS backtracking
priority order, every suffix the pattern can leave; a global `replace` and a
global `exec` loop are then direct scans.  The replacement callbacks and the
state updates of the extraction loop are translated line by line from the
source.  `main`'s directory walk is embedded as a fold over abstract
per-directory filesystem outcomes.
-/

namespace UpdateTs

/-- JS `\s` restricted to the ASCII range (the inputs of this tool are ASCII
source files; the Unicode space characters accepted by JS `\s` never occur). -/
def jsWS (c : Char) : Bool :=
  c = ' ' || c = '\t' || c = '\n' || c = '\r' || c = '\x0B' || c = '\x0C'

/-- The double-quote character. -/
def dq : Char := '\x22'

/-- The single-quote character. -/
def sq : Char := '\x27'

/-- Opening curly brace. -/
def lbrace : Char := '\x7B'

/-- Closing curly brace. -/
def rbrace : Char := '\x7D'

/-- A matcher returns, in backtracking priority order, every suffix that can
remain after the pattern consumes a prefix of the input. -/
def M : Type := List Char → List (List Char)

/-- Single character from a class. -/
def mChar (p : Char → Bool) : M := fun s =>
  match s with
  | [] => []
  | c :: t => if p c then [t] else []

/-- A literal string. -/
def mStr (pat : List Char) : M := fun s =>
  if pat.isPrefixOf s then [s.drop pat.length] else []

/-- Concatenation of two patterns. -/
def mCat (a b : M) : M := fun s => (a s).flatMap b

/-- Ordered alternation (JS tries the left alternative first). -/
def mAlt (a b : M) : M := fun s => a s ++ b s

/-- Greedy `a?`. -/
def mOpt (a : M) : M := fun s => a s ++ [s]

/-- Greedy `p*` for a character class: longest consumption first. -/
def mClassStar (p : Char → Bool) : List Char → List (List Char)
  | [] => [[]]
  | c :: t => if p c then mClassStar p t ++ [c :: t] else [c :: t]

/-- Greedy `p+` for a character class. -/
def mClassPlus (p : Char → Bool) : M := mCat (mChar p) (mClassStar p)

/-- Negative lookahead `(?!a)`. -/
def mNla (a : M) : M := fun s => if (a s).isEmpty then [s] else []

/-- Greedy `a*` where every iteration must consume input (JS terminates a
repetition whose body matched empty); `fuel` bounds the iteration count. -/
def mStarF (a : M) : Nat → M
  | 0 => fun s => [s]
  | fuel + 1 => fun s =>
      ((a s).flatMap (fun t => if t.length < s.length then mStarF a fuel t else [])) ++ [s]

/-- Greedy `a*`; an input of length `n` admits at most `n` consuming
iterations, so `n + 1` fuel is exact. -/
def mStar (a : M) : M := fun s => mStarF a (s.length + 1) s

/-- `[^}]`. -/
def notBrace (c : Char) : Bool := !(c = rbrace)

/-- `[^\s,;]`. -/
def bindChar (c : Char) : Bool := !(jsWS c) && !(c = ',') && !(c = ';')

/-- `[^'"]`. -/
def notQuote (c : Char) : Bool := !(c = sq) && !(c = dq)

/-- `['"]`. -/
def isQuote (c : Char) : Bool := c = sq || c = dq

/-- `\s+`. -/
def wsPlus : M := mClassPlus jsWS

/-- `\s*`. -/
def wsStar : M := fun s => mClassStar jsWS s

/-- `{[^}]*}` — a braced named-import list (may span lines). -/
def braceClause : M :=
  mCat (mChar (fun c => c = lbrace))
    (mCat (fun s => mClassStar notBrace s) (mChar (fun c => c = rbrace)))

/-- `\*\s+as\s+[^\s,;]+` — a namespace import clause. -/
def starAsClause : M :=
  mCat (mChar (fun c => c = '*'))
    (mCat wsPlus (mCat (mStr (("as").data)) (mCat wsPlus (mClassPlus bindChar))))

/-- `(?:{[^}]*}|\*\s+as\s+[^\s,;]+|[^\s,;]+)` — one import clause. -/
def clauseOne : M := mAlt braceClause (mAlt starAsClause (mClassPlus bindChar))

/-- `\s*,\s*CLAUSE` — a further comma-separated clause. -/
def commaClause : M :=
  mCat wsStar (mCat (mChar (fun c => c = ',')) (mCat wsStar clauseOne))

/-- `(?:\s*,\s*CLAUSE)*`. -/
def clauseTail : M := mStar commaClause

/-- `import\s+`. -/
def importHead : M := mCat (mStr (("import").data)) wsPlus

/-- `\s+from\s+['"]`. -/
def fromQuote : M :=
  mCat wsPlus (mCat (mStr (("from").data)) (mCat wsPlus (mChar isQuote)))

/-- `(?:type\s+)?`. -/
def typeOpt : M := mOpt (mCat (mStr (("type").data)) wsPlus)

/-- The shared non-capturing head of both replace regexes of `transformImports`
(update.ts lines 109 and 130):
`import\s+(?:(?:type\s+)?CLAUSE(?:\s*,\s*CLAUSE)*\s+from\s+['"])`. -/
def headM : M := mCat importHead (mCat typeOpt (mCat clauseOne (mCat clauseTail fromQuote)))

/-- Capture group of the local regex (update.ts line 130): `(@\/[^'"]+)`. -/
def pathLocalM : M := mCat (mStr (("@/").data)) (mClassPlus notQuote)

/-- Capture group of the external regex (update.ts line 109):
`([^@][^'"]*|@(?!\/)[^'"]*)`. -/
def pathExtM : M :=
  mAlt (mCat (mChar (fun c => !(c = '@'))) (fun s => mClassStar notQuote s))
       (mCat (mChar (fun c => c = '@'))
         (mCat (mNla (mStr (("/").data))) (fun s => mClassStar notQuote s)))

/-- The closing-quote capture `(["'])`. -/
def quoteEndM : M := mChar isQuote

/-- The first full match of `a` then `b` then `c` at the head of `s`, in JS
backtracking order, as the triple of remainders after each of the three
parts. -/
def findTriple (a b c : M) (s : List Char) : Option (List Char × List Char × List Char) :=
  (a s).findSome? (fun s1 =>
    (b s1).findSome? (fun s2 =>
      (c s2).head?.map (fun s3 => (s1, s2, s3))))

/-- JS `String.prototype.lastIndexOf` (−1 when the pattern does not occur). -/
def jsLastIndexOf (s pat : List Char) : Int :=
  match ((List.range (s.length + 1)).filter (fun i => pat.isPrefixOf (s.drop i))).getLast? with
  | some i => (i : Int)
  | none => -1

/-- JS `String.prototype.substring(0, i)` (a negative bound clamps to 0). -/
def jsSubstringTo (s : List Char) (i : Int) : List Char := s.take i.toNat

/-- JS `String.prototype.indexOf` as an option. -/
def firstIdxOf (s pat : List Char) : Option Nat :=
  (List.range (s.length + 1)).find? (fun i => pat.isPrefixOf (s.drop i))

/-- JS `String.prototype.replace(pat, repl)` with a string pattern: replace
the first occurrence only. -/
def jsReplaceFirst (s pat repl : List Char) : List Char :=
  match firstIdxOf s pat with
  | some i => s.take i ++ repl ++ s.drop (i + pat.length)
  | none => s

/-- JS `String.prototype.includes`. -/
def containsSeq (s pat : List Char) : Bool :=
  (List.range (s.length + 1)).any (fun i => pat.isPrefixOf (s.drop i))

/-- JS `String.prototype.split(sep)`. -/
def jsSplitOn (sep : Char) : List Char → List (List Char)
  | [] => [[]]
  | c :: t =>
      let rest := jsSplitOn sep t
      if c = sep then [] :: rest
      else match rest with
        | [] => [[c]]
        | h :: r => (c :: h) :: r

/-- JS `Array.prototype.join(sep)`. -/
def joinSep (sep : Char) : List (List Char) → List Char
  | [] => []
  | [x] => x
  | x :: y :: r => x ++ sep :: joinSep sep (y :: r)

/-- `CORE_MODULES`, update.ts line 19. -/
def CORE_MODULES : List String := ["react", "clsx", "tailwind-merge", "lucide-react"]

/-- The replacement callback of the external pass as a function of the
captured path (update.ts lines 111-122); the `prefix`/`suffix` reconstruction
around it is performed by `scanRepl`. -/
def externalPathReplace (path : List Char) : List Char :=
  if CORE_MODULES.contains (String.mk path) then path
  else ("npm:").data ++ path

/-- The replacement callback of the local pass as a function of the captured
path (update.ts lines 132-166). -/
def localPathReplace (path : List Char) : List Char :=
  if (("@/registry/default/").data).isPrefixOf path then
    -- `path.replace('@/registry/default/', '@/default/')` plus the
    -- directory-based extension (lines 137-146)
    let newPath := jsReplaceFirst path (("@/registry/default/").data) (("@/default/").data)
    if containsSeq newPath (("/ui/").data) then newPath ++ (".tsx").data
    else newPath ++ (".ts").data
  else if (("@/lib/").data).isPrefixOf path || (("@/hooks/").data).isPrefixOf path then
    -- lines 147-154: `parts[1]` and `parts.slice(2).join('/')` with `.ts`
    let parts := jsSplitOn '/' path
    let directory := (parts.get? 1).getD []
    let filename := joinSep '/' (parts.drop 2)
    ("@/default/").data ++ directory ++ '/' :: filename ++ (".ts").data
  else if path = ("@/lib/utils").data then
    -- line 155-157 (unreachable: the previous branch already matches)
    ("@/default/lib/utils.ts").data
  else
    -- lines 158-165: `'@/default' + path.substring(2)` plus the extension
    if containsSeq path (("/ui/").data) then ("@/default").data ++ path.drop 2 ++ (".tsx").data
    else ("@/default").data ++ path.drop 2 ++ (".ts").data

/-- One global-replace pass of `content.replace(regex, callback)`: scan left
to right; at each position replace the first match `head ++ path ++ quote` by
`match.substring(0, match.lastIndexOf(path)) ++ f path ++ quote`, exactly how
the callbacks of update.ts (lines 111-121 and 132-165) rebuild the
replacement from `match`, the captured `path` and the captured `suffix`. -/
def scanRepl (pm : M) (f : List Char → List Char) : Nat → List Char → List Char
  | _, [] => []
  | 0, s => s
  | fuel + 1, c :: t =>
      let s := c :: t
      match findTriple headM pm quoteEndM s with
      | none => c :: scanRepl pm f fuel t
      | some (s1, s2, s3) =>
          let matched := s.take (s.length - s3.length)
          let path := s1.take (s1.length - s2.length)
          let suffix := s2.take (s2.length - s3.length)
          let repl := jsSubstringTo matched (jsLastIndexOf matched path) ++ f path ++ suffix
          if s3.length < s.length then repl ++ scanRepl pm f fuel s3
          else c :: scanRepl pm f fuel t

/-- `transformImports` (update.ts lines 106-169) on `List Char`: the external
pass over `externalImportRegex` first, then the local pass over
`localImportRegex`. -/
def transformImportsL (content : List Char) : List Char :=
  let transformed := scanRepl pathExtM externalPathReplace (content.length + 1) content
  scanRepl pathLocalM localPathReplace (transformed.length + 1) transformed

/-- `transformImports` on `String`, keeping the source's name. -/
def transformImports (content : String) : String :=
  String.mk (transformImportsL content.data)

/-- Head of the extraction regex of `transformFile` (update.ts line 180):
`^\s*import\s+(?:CLAUSE(?:\s*,\s*CLAUSE)*\s+from\s+)?['"]`; the `^` anchor of
the `m` flag is handled by the scan in `extractLoop`. -/
def extrHeadM : M :=
  mCat (fun s => mClassStar jsWS s)
    (mCat (mStr (("import").data))
      (mCat wsPlus
        (mCat (mOpt (mCat clauseOne
                (mCat clauseTail (mCat wsPlus (mCat (mStr (("from").data)) wsPlus)))))
          (mChar isQuote))))

/-- Capture group `([^'"]+)` of the extraction regex. -/
def extrPathM : M := mClassPlus notQuote

/-- The `while ((match = importRegex.exec(content)) !== null)` loop of
`transformFile` (update.ts lines 181-215): a global scan where the `^` of a
multiline regex holds at offset 0 and right after every newline; each match is
consumed whole and contributes its captured specifier. -/
def extractLoop : Nat → Bool → List Char → List (List Char)
  | _, _, [] => []
  | 0, _, _ => []
  | fuel + 1, atLineStart, c :: t =>
      let s := c :: t
      if atLineStart then
        match findTriple extrHeadM extrPathM quoteEndM s with
        | some (s1, s2, s3) =>
            let path := s1.take (s1.length - s2.length)
            if s3.length < s.length then path :: extractLoop fuel false s3
            else path :: extractLoop fuel (c = '\n') t
        | none => extractLoop fuel (c = '\n') t
      else extractLoop fuel (c = '\n') t

/-- All specifiers the extraction regex captures in `content`, in match
order. -/
def extractSpecifiersL (content : List Char) : List (List Char) :=
  extractLoop (content.length + 1) true content

/-- `ImportInfo`, update.ts lines 13-16. -/
structure ImportInfo where
  count : Nat
  path : String
deriving DecidableEq

/-- The three module-level `Map`s of update.ts lines 22-24, as insertion-order
association lists. -/
structure ImportState where
  coreImports : List (String × ImportInfo)
  externalImports : List (String × ImportInfo)
  localImports : List (String × ImportInfo)
deriving DecidableEq

/-- The state at process start: all three maps empty. -/
def emptyState : ImportState := ⟨[], [], []⟩

/-- The `has`/`get`/`count++`/`set`-else-`set(1)` update of one map
(update.ts lines 189-195 and analogues): a present key is updated in place,
an absent key is appended, matching `Map` insertion order. -/
def bump : List (String × ImportInfo) → String → List (String × ImportInfo)
  | [], k => [(k, ⟨1, k⟩)]
  | (a, info) :: rest, k =>
      if k = a then (a, ⟨info.count + 1, info.path⟩) :: rest
      else (a, info) :: bump rest k

/-- The three categories of update.ts lines 186-214. -/
inductive ImportCat
  | core
  | localCat
  | externalCat
deriving DecidableEq

/-- `String.startsWith`, phrased on the character data (its specification)
so that it evaluates by kernel reduction. -/
def strStarts (s pre : String) : Bool := pre.data.isPrefixOf s.data

/-- The classification chain of update.ts lines 187, 196, 205:
allow-list first, then the `@/` test, else external. -/
def classify (s : String) : ImportCat :=
  if CORE_MODULES.contains s then .core
  else if strStarts s ("@/") then .localCat
  else .externalCat

/-- Record one extracted specifier into the map its category selects
(update.ts lines 186-214). -/
def updateImport (st : ImportState) (s : String) : ImportState :=
  match classify s with
  | .core => { st with coreImports := bump st.coreImports s }
  | .localCat => { st with localImports := bump st.localImports s }
  | .externalCat => { st with externalImports := bump st.externalImports s }

/-- The fold of the extraction loop over one file's matches. -/
def processSpecs (st : ImportState) (l : List (List Char)) : ImportState :=
  l.foldl (fun s p => updateImport s (String.mk p)) st

/-- The marker `transformFile` tests with `content.includes(...)`
(update.ts line 176). -/
def domMarker : List Char := ("/// <reference lib=\x22dom\x22").data

/-- The text `transformFile` prepends when the marker is absent
(update.ts line 177). -/
def domHeader : List Char := ("/// <reference lib=\x22dom\x22 />\n\n").data

/-- `transformFile` (update.ts lines 174-218) with the module-level maps made
explicit: returns the updated maps and the returned text. -/
def transformFileL (st : ImportState) (content : List Char) : ImportState × List Char :=
  let hasReference := containsSeq content domMarker
  let newContent := if hasReference then content else domHeader ++ content
  (processSpecs st (extractSpecifiersL content), newContent)

/-- `transformFile` on `String`, keeping the source's name. -/
def transformFile (st : ImportState) (content : String) : ImportState × String :=
  let r := transformFileL st content.data
  (r.1, String.mk r.2)

/-- The text `copyDirectory` writes for one file (update.ts lines 237-246):
`transformFile` first, then `transformImports`. -/
def writtenFileText (st : ImportState) (content : List Char) : List Char :=
  transformImportsL ((transformFileL st content).2)

/-- Run the extraction stage over a list of file contents, as the recursive
walk does. -/
def processFiles (st : ImportState) (contents : List (List Char)) : ImportState :=
  contents.foldl (fun s c => (transformFileL s c).1) st

/-- The count stored for a specifier: the `count` field of its entry in the
map its category selects, 0 when absent. -/
def countOf (st : ImportState) (q : String) : Nat :=
  let cnt := fun (m : List (String × ImportInfo)) =>
    ((m.lookup q).map ImportInfo.count).getD 0
  match classify q with
  | .core => cnt st.coreImports
  | .localCat => cnt st.localImports
  | .externalCat => cnt st.externalImports

/-- Key membership in one of the three maps. -/
def hasKey (m : List (String × ImportInfo)) (q : String) : Bool :=
  (m.lookup q).isSome

/-- A specifier is recorded in at most one of the three collections. -/
def inAtMostOneBucket (st : ImportState) (q : String) : Prop :=
  (hasKey st.coreImports q → ¬ hasKey st.externalImports q ∧ ¬ hasKey st.localImports q) ∧
  (hasKey st.externalImports q → ¬ hasKey st.coreImports q ∧ ¬ hasKey st.localImports q) ∧
  (hasKey st.localImports q → ¬ hasKey st.coreImports q ∧ ¬ hasKey st.externalImports q)

/-- Every key sits in the bucket its classification selects. -/
def wfState (st : ImportState) : Prop :=
  (∀ p ∈ st.coreImports, classify p.1 = .core) ∧
  (∀ p ∈ st.localImports, classify p.1 = .localCat) ∧
  (∀ p ∈ st.externalImports, classify p.1 = .externalCat)

end UpdateTs

namespace UpdateTs

/-- `DIRECTORIES`, update.ts line 27. -/
def DIRECTORIES : List String := ["hooks", "lib", "ui"]

/-- Abstract outcome of processing one directory inside the `try` of `main`'s
loop (update.ts lines 49-61): the `stat`/`ensureDir`/`copyDirectory` calls
either all succeed, or the first failure throws `NotFound`, or it throws some
other error carrying a message. -/
inductive FsOutcome
  | ok
  | notFound
  | err (msg : String)
deriving DecidableEq

/-- The log lines and the fully copied directories accumulated by the loop. -/
structure RunLog where
  logs : List String
  copied : List String
deriving DecidableEq

/-- One iteration of `main`'s directory loop (update.ts lines 45-71): success
logs the two progress lines and copies the directory; a `NotFound` is caught
and logged as a warning; any other error is caught and logged with its
message; in every case the loop moves on to the next directory. -/
def processDir (acc : RunLog) (dir : String) (outcome : FsOutcome) : RunLog :=
  match outcome with
  | .ok =>
      { logs := acc.logs ++ ["Copying " ++ dir ++ " components...",
          "Successfully copied " ++ dir ++ " components"],
        copied := acc.copied ++ [dir] }
  | .notFound =>
      { acc with logs := acc.logs ++
          ["Warning: Directory " ++ dir ++ " not found, skipping."] }
  | .err m =>
      { acc with logs := acc.logs ++ ["Error processing " ++ dir ++ ": " ++ m] }

/-- `main` (update.ts lines 29-99 and 252-259) over abstract filesystem
outcomes: a missing registry exits 1 before the loop; otherwise every
directory of `DIRECTORIES` is processed in order with all errors caught
inside the loop, and `main` then finishes its reporting normally, so the
process exits 0.  Returns the exit code and the run log. -/
def runMain (registryExists : Bool) (outcome : String → FsOutcome) : Nat × RunLog :=
  if registryExists then
    let r := DIRECTORIES.foldl (fun acc d => processDir acc d (outcome d))
      { logs := ["Starting shadcn/ui components update..."], copied := [] }
    (0, { r with logs := r.logs ++ ["shadcn/ui component update completed!"] })
  else
    (1, { logs := ["Error: Could not find shadcn/ui registry"], copied := [] })

/-- Modelled from the spec: the final import rewriter's extension-resolution
helpers `fileExtensionMap` and `determineFileExtension` are referenced by
`scripts/update.test.ts` (lines 8-20 and 174-183) but their defining variant
of update.ts is not in the repository snapshot; only the variant without an
index is.  Spec §4.3: "strip any alias prefix down to the logical path used
as an index key, look it up in the File Index; if found, append the recorded
extension; if not found, fall back to a heuristic — append `.tsx` if the
logical path contains a UI-components directory segment, else append `.ts`."
`stripAliasToLogical` strips the alias down to the index key (spec §3: keys
such as `hooks/use-mobile` carry no alias and no extension). -/
def stripAliasToLogical (p : String) : String :=
  if strStarts p ("@/default/") then p.drop (("@/default/").length)
  else if strStarts p ("@/") then p.drop (("@/").length)
  else p

/-- Modelled from the spec (§4.3, see `stripAliasToLogical`): the index lookup
with the documented `.tsx`/`.ts` heuristic fallback.  The index is the File
Index of spec §3, a logical-path → extension map. -/
def determineFileExtension (idx : List (String × String)) (p : String) : String :=
  let logical := stripAliasToLogical p
  match idx.lookup logical with
  | some ext => ext
  | none =>
      if (("ui/").data).isPrefixOf logical.data || containsSeq logical.data (("/ui/").data)
      then ".tsx" else ".ts"

/-- Modelled from the spec (§4.3): the final rewriter's prefix remapping,
rules 1-4 in priority order — registry prefix, lib/hooks, the exact
utility-module shortcut, then the generic alias rule. -/
def remapLocalSpecifier (p : String) : String :=
  if strStarts p ("@/registry/default/") then
    ("@/default/") ++ p.drop (("@/registry/default/").length)
  else if strStarts p ("@/lib/") || strStarts p ("@/hooks/") then
    ("@/default/") ++ p.drop (("@/").length)
  else if p = ("@/lib/utils") then ("@/default/lib/utils")
  else if strStarts p ("@/") then ("@/default/") ++ p.drop (("@/").length)
  else p

/-- Modelled from the spec (§4.3): remap the prefix, then append the
extension the index (or the heuristic) resolves for the remapped path. -/
def finalRewriteSpecifier (idx : List (String × String)) (p : String) : String :=
  let r := remapLocalSpecifier p
  r ++ determineFileExtension idx r

end UpdateTs

namespace UpdateTs

/-- The canonical single-import head used by the generic theorems. -/
def canonHead : List Char := ("import X from \x22").data

/-- A canonical single-import statement around a specifier. -/
def canonImport (spec : List Char) : List Char := canonHead ++ spec ++ (dq :: ';' :: [])

/-- Specifier well-formedness for the generic theorems: non-empty, no
whitespace and no quote characters — true of every module specifier in the
repository. -/
def wfSpec (P : List Char) : Prop :=
  P ≠ [] ∧ ∀ c ∈ P, jsWS c = false ∧ c ≠ dq ∧ c ≠ sq

set_option maxHeartbeats 1600000 in
/-- The shared regex head consumes exactly the canonical head text. -/
theorem headM_canon (X : List Char) : headM (canonHead ++ X) = [X] := rfl

theorem findSome?_cons_some {α β : Type} (f : α → Option β) (a : α) (l : List α) (b : β)
    (h : f a = some b) : (a :: l).findSome? f = some b := by
  simp [List.findSome?_cons, h]

/-- The head pattern needs `\s+` after `import`, so it cannot match inside a
whitespace-free region. -/
theorem findTriple_none_of_noWS (pm : M) (s : List Char)
    (h : ∀ c ∈ s, jsWS c = false) :
    findTriple headM pm quoteEndM s = none := by
  have hhead : headM s = [] := by
    show (importHead s).flatMap _ = []
    have : importHead s = [] := by
      show (mStr ((("import").data)) s).flatMap wsPlus = []
      by_cases hp : (("import").data).isPrefixOf s
      · have he : mStr ((("import").data)) s = [s.drop 6] := by simp [mStr, hp]
        rw [he]
        have hw : wsPlus (s.drop 6) = [] := by
          cases hd : s.drop 6 with
          | nil => simp [wsPlus, mClassPlus, mCat, mChar]
          | cons c t =>
              have hc : c ∈ s := by
                have := List.drop_subset 6 s
                exact this (by rw [hd]; exact List.mem_cons_self _ _)
              simp [wsPlus, mClassPlus, mCat, mChar, h c hc]
        simp [hw]
      · simp [mStr, hp]
    rw [this]; rfl
  simp [findTriple, hhead]

/-- No position of `s` starts a match of the head-path-quote pattern. -/
def NoHit (pm : M) (s : List Char) : Prop :=
  ∀ i, findTriple headM pm quoteEndM (s.drop i) = none

theorem noHit_of_noWS (pm : M) (s : List Char) (h : ∀ c ∈ s, jsWS c = false) :
    NoHit pm s := by
  intro i
  exact findTriple_none_of_noWS pm _ (fun c hc => h c (List.drop_subset i s hc))

theorem dropAppend (l r : List α) (j : Nat) : (l ++ r).drop (l.length + j) = r.drop j := by
  induction l with
  | nil => simp
  | cons c t ih => simpa [Nat.succ_add] using ih

theorem dropAppendLe (l r : List α) : ∀ i, i ≤ l.length → (l ++ r).drop i = l.drop i ++ r := by
  induction l with
  | nil =>
      intro i hi
      have : i = 0 := by simpa using hi
      subst this; rfl
  | cons c t ih =>
      intro i hi
      cases i with
      | zero => rfl
      | succ j =>
          have := ih j (by simpa using hi)
          simpa using this

set_option maxHeartbeats 1600000 in
/-- A `NoHit` over `canonHead ++ X`, given a position-0 miss and a
whitespace-free tail: no later position can start a match because `import`
followed by whitespace occurs nowhere else. -/
theorem noHit_canon (pm : M) (X : List Char)
    (h0 : findTriple headM pm quoteEndM (canonHead ++ X) = none)
    (hX : ∀ c ∈ X, jsWS c = false) : NoHit pm (canonHead ++ X) := by
  intro i
  by_cases hi : i < 15
  · interval_cases i
    · exact h0
    · rfl
    · rfl
    · rfl
    · rfl
    · rfl
    · rfl
    · rfl
    · rfl
    · rfl
    · rfl
    · rfl
    · rfl
    · rfl
    · rfl
  · have h15 : 15 ≤ i := Nat.le_of_not_lt hi
    obtain ⟨j, rfl⟩ := Nat.exists_eq_add_of_le h15
    have hl : canonHead.length = 15 := rfl
    have hd : (canonHead ++ X).drop (15 + j) = X.drop j := by
      rw [← hl]; exact dropAppend canonHead X j
    rw [hd]
    exact findTriple_none_of_noWS pm _ (fun c hc => hX c (List.drop_subset j X hc))

/-- A replace pass is the identity on a region with no match anywhere. -/
theorem scanRepl_id (pm : M) (f : List Char → List Char) (s : List Char)
    (h : NoHit pm s) : ∀ fuel, scanRepl pm f fuel s = s := by
  induction s with
  | nil => intro fuel; cases fuel <;> rfl
  | cons c t ih =>
      intro fuel
      cases fuel with
      | zero => rfl
      | succ n =>
          have h0 := h 0
          simp only [List.drop_zero] at h0
          have ht : NoHit pm t := fun i => by
            have := h (i + 1)
            simpa using this
          show scanRepl pm f (n + 1) (c :: t) = c :: t
          simp [scanRepl, h0, ih ht n]

/-- Unfolding one replace step at a matching position. -/
theorem scanRepl_hit (pm : M) (f : List Char → List Char) (n : Nat) (s s1 s2 s3 : List Char)
    (hs : s ≠ [])
    (h : findTriple headM pm quoteEndM s = some (s1, s2, s3))
    (hlt : s3.length < s.length) :
    scanRepl pm f (n + 1) s =
      (jsSubstringTo (s.take (s.length - s3.length))
          (jsLastIndexOf (s.take (s.length - s3.length)) (s1.take (s1.length - s2.length)))
        ++ f (s1.take (s1.length - s2.length)) ++ s2.take (s2.length - s3.length))
      ++ scanRepl pm f n s3 := by
  obtain ⟨c, t, rfl⟩ := List.exists_cons_of_ne_nil hs
  simp only [scanRepl]
  rw [h]
  simp only []
  rw [if_pos hlt]

/-- The greedy class star on a run of class characters followed by a
non-class head: the longest consumption comes first. -/
theorem mClassStar_run (p : Char → Bool) (l : List Char) :
    ∀ r, (∀ x ∈ l, p x = true) → (∀ c rt, r = c :: rt → p c = false) →
    ∃ junk, mClassStar p (l ++ r) = r :: junk := by
  induction l with
  | nil =>
      intro r _ hr
      cases r with
      | nil => exact ⟨[], rfl⟩
      | cons c rt =>
          refine ⟨[], ?_⟩
          simp [mClassStar, hr c rt rfl]
  | cons c l ih =>
      intro r hl hr
      obtain ⟨junk, hj⟩ := ih r (fun x hx => hl x (List.mem_cons_of_mem _ hx)) hr
      refine ⟨junk ++ [c :: (l ++ r)], ?_⟩
      simp [mClassStar, hl c (List.mem_cons_self _ _), hj]

theorem notQuote_dq : notQuote dq = false := rfl

/-- The local path capture `@\/[^'"]+` on `@/rest` followed by the closing
quote stops exactly at the quote in its first (greedy) alternative. -/
theorem pathLocal_hit (rest bt : List Char) (hne : rest ≠ [])
    (hrest : ∀ x ∈ rest, notQuote x = true) :
    ∃ junk, pathLocalM ('@' :: '/' :: (rest ++ dq :: bt)) = (dq :: bt) :: junk := by
  obtain ⟨c, rt, rfl⟩ := List.exists_cons_of_ne_nil hne
  have hc : notQuote c = true := hrest c (List.mem_cons_self _ _)
  obtain ⟨junk, hj⟩ := mClassStar_run notQuote rt (dq :: bt)
    (fun x hx => hrest x (List.mem_cons_of_mem _ hx))
    (fun d dt hd => by cases hd; exact notQuote_dq)
  refine ⟨junk, ?_⟩
  show ((mStr ((("@/").data))) _).flatMap (mClassPlus notQuote) = _
  have h1 : (mStr ((("@/").data))) ('@' :: '/' :: ((c :: rt) ++ dq :: bt))
      = [(c :: rt) ++ dq :: bt] := rfl
  simp only [List.cons_append] at h1 ⊢
  rw [h1]
  simp [mClassPlus, mCat, mChar, hc, hj]

/-- The chosen match triple on a canonical local import statement. -/
theorem findTriple_local_hit (rest bt : List Char) (hne : rest ≠ [])
    (hrest : ∀ x ∈ rest, notQuote x = true) :
    findTriple headM pathLocalM quoteEndM (canonHead ++ ('@' :: '/' :: (rest ++ dq :: bt)))
      = some (('@' :: '/' :: (rest ++ dq :: bt)), dq :: bt, bt) := by
  obtain ⟨junk, hj⟩ := pathLocal_hit rest bt hne hrest
  show (headM (canonHead ++ ('@' :: '/' :: (rest ++ dq :: bt)))).findSome? _ = _
  rw [headM_canon]
  refine findSome?_cons_some _ _ _ _ ?_
  rw [hj]
  exact findSome?_cons_some _ _ _ _ rfl

theorem filter_range_getLast (p : Nat → Bool) (k : Nat) :
    ∀ m, k < m → p k = true → (∀ j, k < j → p j = false) →
    ((List.range m).filter p).getLast? = some k := by
  intro m
  induction m with
  | zero => intro h; omega
  | succ m ih =>
      intro hm hk hgt
      rw [List.range_succ, List.filter_append]
      by_cases hmk : m = k
      · subst hmk
        simp [hk]
      · have hkm : k < m := by omega
        have : p m = false := hgt m hkm
        simp [this, ih hkm hk hgt]

/-- `lastIndexOf` finds the designated occurrence of the captured path inside
`match`: the path sits right before the final quote, the quote is not one of
its characters, and nothing fits after it. -/
theorem jsLastIndexOf_concat (pre pat : List Char) (q : Char)
    (hne : pat ≠ []) (hq : q ∉ pat) :
    jsLastIndexOf ((pre ++ pat) ++ [q]) pat = (pre.length : Int) := by
  have hlen : ((pre ++ pat) ++ [q]).length = pre.length + pat.length + 1 := by
    simp
    omega
  have hP : pat.isPrefixOf (((pre ++ pat) ++ [q]).drop pre.length) = true := by
    rw [List.append_assoc, List.drop_left]
    exact List.isPrefixOf_iff_prefix.2 (List.prefix_append pat [q])
  have hgt : ∀ j, pre.length < j →
      (pat.isPrefixOf (((pre ++ pat) ++ [q]).drop j)) = false := by
    intro j hj
    by_cases hjl : ((pre ++ pat) ++ [q]).length ≤ j
    · rw [List.drop_of_length_le hjl]
      cases pat with
      | nil => exact absurd rfl hne
      | cons a l => rfl
    · push_neg at hjl
      by_cases hj1 : j = pre.length + 1
      · subst hj1
        cases pat with
        | nil => exact absurd rfl hne
        | cons a l =>
            have hd : ((pre ++ (a :: l)) ++ [q]).drop (pre.length + 1) = l ++ [q] := by
              rw [List.append_assoc, dropAppend pre ((a :: l) ++ [q]) 1]
              simp
            rw [hd]
            by_contra hcon
            have htrue : (a :: l).isPrefixOf (l ++ [q]) = true := by
              cases hx : (a :: l).isPrefixOf (l ++ [q])
              · exact absurd hx hcon
              · rfl
            have hpre := List.isPrefixOf_iff_prefix.1 htrue
            have hlq : (a :: l).length = (l ++ [q]).length := by simp
            have heq := List.IsPrefix.eq_of_length hpre hlq
            have : q ∈ a :: l := by
              rw [heq]
              simp
            exact hq this
      · have hlt2 : ((pre ++ pat) ++ [q]).length - j < pat.length := by
          rw [hlen]; omega
        by_contra hcon
        have htrue : pat.isPrefixOf (((pre ++ pat) ++ [q]).drop j) = true := by
          cases hx : pat.isPrefixOf (((pre ++ pat) ++ [q]).drop j)
          · exact absurd hx hcon
          · rfl
        have hpre := List.isPrefixOf_iff_prefix.1 htrue
        have := hpre.length_le
        rw [List.length_drop] at this
        omega
  show (match ((List.range _).filter _).getLast? with
        | some i => (i : Int) | none => -1) = _
  rw [filter_range_getLast _ pre.length _ (by rw [hlen]; omega) hP hgt]

theorem takeAppend (l r : List α) : (l ++ r).take l.length = l := by
  induction l with
  | nil => rfl
  | cons c t ih => simp [ih]

theorem takeSubLen (l r : List α) : (l ++ r).take ((l ++ r).length - r.length) = l := by
  have h : (l ++ r).length - r.length = l.length := by simp
  rw [h]; exact takeAppend l r

theorem isPrefixOf_append_self (l r : List Char) : l.isPrefixOf (l ++ r) = true :=
  List.isPrefixOf_iff_prefix.2 (List.prefix_append l r)

theorem firstIdxOf_zero (s pat : List Char) (h : pat.isPrefixOf s = true) :
    firstIdxOf s pat = some 0 := by
  show ((List.range (s.length + 1)).find? _) = some 0
  rw [List.range_succ_eq_map]
  rw [List.find?_cons_of_pos]
  simpa using h

theorem jsReplaceFirst_head (pat r repl : List Char) :
    jsReplaceFirst (pat ++ r) pat repl = repl ++ r := by
  show (match firstIdxOf (pat ++ r) pat with
        | some i => (pat ++ r).take i ++ repl ++ (pat ++ r).drop (i + pat.length)
        | none => pat ++ r) = repl ++ r
  rw [firstIdxOf_zero _ _ (isPrefixOf_append_self pat r)]
  have hd : (pat ++ r).drop (0 + pat.length) = r := by
    have := dropAppend pat r 0
    rw [Nat.add_comm] at this
    simpa using this
  simp [hd]

theorem containsSeq_iff (s pat : List Char) :
    containsSeq s pat = true ↔ ∃ i, pat.isPrefixOf (s.drop i) = true := by
  constructor
  · intro h
    obtain ⟨i, _, hi⟩ := List.any_eq_true.1 h
    exact ⟨i, hi⟩
  · rintro ⟨i, hi⟩
    rcases le_or_lt i s.length with hle | hgt
    · exact List.any_eq_true.2 ⟨i, List.mem_range.2 (by omega), hi⟩
    · have hnil : s.drop i = [] := List.drop_of_length_le (by omega)
      rw [hnil] at hi
      cases pat with
      | nil =>
          refine List.any_eq_true.2 ⟨0, List.mem_range.2 (by omega), ?_⟩
          cases s <;> rfl
      | cons a l => exact absurd hi (by simp [List.isPrefixOf])

end UpdateTs

namespace UpdateTs

theorem dropAppendLit (l r : List α) (j : Nat) (n : Nat) (hn : l.length = n) :
    (l ++ r).drop (n + j) = r.drop j := by
  subst hn
  exact dropAppend l r j

/-- The registry branch of the local callback (update.ts lines 137-146):
prefix substitution plus the `/ui/`-directory extension heuristic. -/
theorem localPathReplace_registry (P : List Char) :
    localPathReplace ((("@/registry/default/").data) ++ P)
      = (("@/default/").data) ++ P ++
        (if containsSeq ((("@/default/").data) ++ P) (("/ui/").data)
          then (".tsx").data else (".ts").data) := by
  show (if (("@/registry/default/").data).isPrefixOf ((("@/registry/default/").data) ++ P)
          then _ else _) = _
  rw [if_pos (isPrefixOf_append_self _ _)]
  rw [jsReplaceFirst_head]
  by_cases h : containsSeq ((("@/default/").data) ++ P) (("/ui/").data) = true
  · rw [if_pos h, if_pos h]
  · rw [if_neg h, if_neg h]

/-- The `newPath.includes('/ui/')` test of the registry branch holds exactly
when the sub-path has a `ui` directory segment: it starts with `ui/` or
contains `/ui/`. -/
theorem uiCond_eq (P : List Char) :
    containsSeq ((("@/default/").data) ++ P) (("/ui/").data)
      = ((("ui/").data).isPrefixOf P || containsSeq P (("/ui/").data)) := by
  rw [Bool.eq_iff_iff]
  constructor
  · intro h
    obtain ⟨i, hi⟩ := (containsSeq_iff _ _).1 h
    by_cases hcase : i < 10
    · have hdrop : ((("@/default/").data) ++ P).drop i = (("@/default/").data).drop i ++ P :=
        dropAppendLe _ _ i (by
          have h10 : (("@/default/").data).length = 10 := rfl
          omega)
      rw [hdrop] at hi
      interval_cases i
      · rw [show ((("/ui/").data).isPrefixOf ((("@/default/").data).drop 0 ++ P)) = false from rfl] at hi
        exact absurd hi (by simp)
      · rw [show ((("/ui/").data).isPrefixOf ((("@/default/").data).drop 1 ++ P)) = false from rfl] at hi
        exact absurd hi (by simp)
      · rw [show ((("/ui/").data).isPrefixOf ((("@/default/").data).drop 2 ++ P)) = false from rfl] at hi
        exact absurd hi (by simp)
      · rw [show ((("/ui/").data).isPrefixOf ((("@/default/").data).drop 3 ++ P)) = false from rfl] at hi
        exact absurd hi (by simp)
      · rw [show ((("/ui/").data).isPrefixOf ((("@/default/").data).drop 4 ++ P)) = false from rfl] at hi
        exact absurd hi (by simp)
      · rw [show ((("/ui/").data).isPrefixOf ((("@/default/").data).drop 5 ++ P)) = false from rfl] at hi
        exact absurd hi (by simp)
      · rw [show ((("/ui/").data).isPrefixOf ((("@/default/").data).drop 6 ++ P)) = false from rfl] at hi
        exact absurd hi (by simp)
      · rw [show ((("/ui/").data).isPrefixOf ((("@/default/").data).drop 7 ++ P)) = false from rfl] at hi
        exact absurd hi (by simp)
      · rw [show ((("/ui/").data).isPrefixOf ((("@/default/").data).drop 8 ++ P)) = false from rfl] at hi
        exact absurd hi (by simp)
      · rw [show ((("/ui/").data).isPrefixOf ((("@/default/").data).drop 9 ++ P))
              = (("ui/").data).isPrefixOf P from rfl] at hi
        rw [Bool.or_eq_true]
        exact Or.inl hi
    · have h10 : 10 ≤ i := by omega
      obtain ⟨j, rfl⟩ := Nat.exists_eq_add_of_le h10
      have hdrop : ((("@/default/").data) ++ P).drop (10 + j) = P.drop j :=
        dropAppendLit _ _ j 10 rfl
      rw [hdrop] at hi
      rw [Bool.or_eq_true]
      exact Or.inr ((containsSeq_iff _ _).2 ⟨j, hi⟩)
  · intro h
    rw [Bool.or_eq_true] at h
    rcases h with h | h
    · refine (containsSeq_iff _ _).2 ⟨9, ?_⟩
      have hdrop : ((("@/default/").data) ++ P).drop 9 = (("@/default/").data).drop 9 ++ P :=
        dropAppendLe _ _ 9 (by
          have h10 : (("@/default/").data).length = 10 := rfl
          omega)
      rw [hdrop]
      rw [show ((("/ui/").data).isPrefixOf ((("@/default/").data).drop 9 ++ P))
            = (("ui/").data).isPrefixOf P from rfl]
      exact h
    · obtain ⟨j, hj⟩ := (containsSeq_iff _ _).1 h
      refine (containsSeq_iff _ _).2 ⟨10 + j, ?_⟩
      have hdrop : ((("@/default/").data) ++ P).drop (10 + j) = P.drop j :=
        dropAppendLit _ _ j 10 rfl
      rw [hdrop]
      exact hj

theorem nilIsPre (l : List Char) : ([] : List Char).isPrefixOf l = true := by
  cases l <;> rfl

set_option maxHeartbeats 1600000 in
/-- Both alternatives of the external path capture fail on a specifier that
starts with `@/`: `[^@]` rejects the `@` and the lookahead `(?!\/)` rejects
the `/`. -/
theorem extMiss_local (r : List Char) :
    findTriple headM pathExtM quoteEndM (canonHead ++ ('@' :: '/' :: r)) = none := by
  show (headM (canonHead ++ ('@' :: '/' :: r))).findSome? _ = _
  rw [headM_canon]
  have hb : (mStr ((("/").data))) ('/' :: r) = [r] := by
    have hp : (("/").data).isPrefixOf ('/' :: r) = true := by
      show (('/' : Char) == '/' && ([] : List Char).isPrefixOf r) = true
      rw [nilIsPre]
      rfl
    simp [mStr, hp]
  have hnla : mNla (mStr ((("/").data))) ('/' :: r) = [] := by
    simp [mNla, hb]
  have h1 : pathExtM ('@' :: '/' :: r) = [] := by
    show (mCat (mChar _) _) ('@' :: '/' :: r)
        ++ (mCat (mChar _) (mCat (mNla _) _)) ('@' :: '/' :: r) = []
    have ha : (mCat (mChar (fun c => !(c = '@')))
        (fun s => mClassStar notQuote s)) ('@' :: '/' :: r) = [] := rfl
    have hc : (mCat (mChar (fun c => c = '@'))
        (mCat (mNla (mStr ((("/").data)))) (fun s => mClassStar notQuote s)))
        ('@' :: '/' :: r) = [] := by
      show ((mChar (fun c => c = '@')) ('@' :: '/' :: r)).flatMap _ = []
      have hone : (mChar (fun c => c = '@')) ('@' :: '/' :: r) = ['/' :: r] := rfl
      rw [hone]
      simp [mCat, hnla]
    rw [ha, hc]
    rfl
  simp [h1]

set_option maxHeartbeats 1600000 in
/-- The local path capture `@\/…` fails when the specifier head is not `@`. -/
theorem localMiss_canon (c : Char) (r : List Char) (hc : c ≠ '@') :
    findTriple headM pathLocalM quoteEndM (canonHead ++ (c :: r)) = none := by
  show (headM (canonHead ++ (c :: r))).findSome? _ = _
  rw [headM_canon]
  have hb : (('@' : Char) == c) = false := beq_eq_false_iff_ne.2 (Ne.symm hc)
  have hpre : (("@/").data).isPrefixOf (c :: r) = false := by
    show (('@' : Char) == c && (("/").data).isPrefixOf r) = false
    rw [hb]
    rfl
  have hpl : pathLocalM (c :: r) = [] := by
    show ((mStr ((("@/").data))) (c :: r)).flatMap (mClassPlus notQuote) = []
    simp [mStr, hpre]
  simp [hpl]

theorem noHit_semi (pm : M) : NoHit pm ([';'] : List Char) := by
  intro i
  cases i with
  | zero => rfl
  | succ n =>
      have hd : ([';'] : List Char).drop (n + 1) = [] := by simp
      rw [hd]; rfl

end UpdateTs

namespace UpdateTs

set_option maxHeartbeats 1600000 in
/-- The full rewrite of a canonical import of `@/registry/default/P`:
the external pass leaves it alone, the local pass rewrites the specifier to
`@/default/P` with the heuristic extension. -/
theorem registry_rewrite (P : List Char) (h : wfSpec P) :
    transformImportsL (canonImport ((("@/registry/default/").data) ++ P))
      = canonImport ((("@/default/").data) ++ P ++
          (if (("ui/").data).isPrefixOf P || containsSeq P (("/ui/").data)
            then (".tsx").data else (".ts").data)) := by
  obtain ⟨hne, hchars⟩ := h
  have hregq : ∀ x ∈ ("registry/default/").data, notQuote x = true := by decide
  have hregw : ∀ x ∈ ("registry/default/").data, jsWS x = false := by decide
  have hrestq : ∀ x ∈ ("registry/default/").data ++ P, notQuote x = true := by
    intro x hx
    rcases List.mem_append.1 hx with hx | hx
    · exact hregq x hx
    · obtain ⟨_, hdq, hsq⟩ := hchars x hx
      simp [notQuote, hdq, hsq, dq, sq] at *
      exact ⟨hsq, hdq⟩
  have hX : ∀ c ∈ ('@' :: '/' :: ((("registry/default/").data ++ P) ++ dq :: ';' :: [])),
      jsWS c = false := by
    intro c hc
    rcases hc with _ | ⟨_, hc⟩
    · rfl
    rcases hc with _ | ⟨_, hc⟩
    · rfl
    rcases List.mem_append.1 hc with hc | hc
    · rcases List.mem_append.1 hc with hc | hc
      · exact hregw c hc
      · exact (hchars c hc).1
    · rcases hc with _ | ⟨_, hc⟩
      · rfl
      rcases hc with _ | ⟨_, hc⟩
      · rfl
      · exact absurd hc (List.not_mem_nil c)
  have hkey : canonImport ((("@/registry/default/").data) ++ P)
      = canonHead ++ ('@' :: '/' :: ((("registry/default/").data ++ P) ++ dq :: ';' :: [])) := by
    have h1 : ("@/registry/default/").data
        = '@' :: '/' :: ("registry/default/").data := by decide
    rw [canonImport, h1]
    simp
  rw [hkey]
  simp only [transformImportsL]
  rw [scanRepl_id pathExtM externalPathReplace _
        (noHit_canon pathExtM _ (extMiss_local _) hX) _]
  have hhit := findTriple_local_hit (("registry/default/").data ++ P) ([';'])
    (by simp) hrestq
  have hlt : ([';'] : List Char).length <
      (canonHead ++ ('@' :: '/' :: ((("registry/default/").data ++ P) ++ dq :: ';' :: []))).length := by
    have h15 : canonHead.length = 15 := rfl
    simp
    omega
  rw [scanRepl_hit pathLocalM localPathReplace _ _ _ _ _ (by simp) hhit hlt]
  rw [scanRepl_id pathLocalM localPathReplace _ (noHit_semi pathLocalM) _]
  have hsplit2 : ('@' :: '/' :: ((("registry/default/").data ++ P) ++ dq :: ';' :: []))
      = ('@' :: '/' :: (("registry/default/").data ++ P)) ++ (dq :: ';' :: []) := by simp
  rw [hsplit2]
  have hsplit3 : canonHead ++ (('@' :: '/' :: (("registry/default/").data ++ P)) ++ (dq :: ';' :: []))
      = ((canonHead ++ ('@' :: '/' :: (("registry/default/").data ++ P))) ++ [dq]) ++ [';'] := by
    simp
  rw [hsplit3]
  rw [takeSubLen]
  have hpath : (('@' :: '/' :: (("registry/default/").data ++ P)) ++ (dq :: ';' :: [])).take
      ((('@' :: '/' :: (("registry/default/").data ++ P)) ++ (dq :: ';' :: [])).length
        - (dq :: ';' :: []).length)
      = '@' :: '/' :: (("registry/default/").data ++ P) := takeSubLen _ _
  rw [hpath]
  have hsfx : (dq :: ';' :: []).take ((dq :: ';' :: []).length - ([';'] : List Char).length)
      = [dq] := rfl
  rw [hsfx]
  have hform : ('@' :: '/' :: (("registry/default/").data ++ P))
      = ("@/registry/default/").data ++ P := by
    have h1 : ("@/registry/default/").data = '@' :: '/' :: ("registry/default/").data := by decide
    rw [h1]
    simp
  have hlast : jsLastIndexOf
      ((canonHead ++ ('@' :: '/' :: (("registry/default/").data ++ P))) ++ [dq])
      ('@' :: '/' :: (("registry/default/").data ++ P)) = (canonHead.length : Int) := by
    apply jsLastIndexOf_concat
    · simp
    · intro hmem
      rcases hmem with _ | ⟨_, hmem⟩
      rcases hmem with _ | ⟨_, hmem⟩
      rcases List.mem_append.1 hmem with hm | hm
      · exact absurd hm (by decide)
      · exact absurd rfl (hchars dq hm).2.1
  rw [hlast]
  have hsub : jsSubstringTo
      ((canonHead ++ ('@' :: '/' :: (("registry/default/").data ++ P))) ++ [dq])
      ((canonHead.length : Int)) = canonHead := by
    show ((canonHead ++ _) ++ [dq]).take ((canonHead.length : Int)).toNat = canonHead
    rw [Int.toNat_natCast, List.append_assoc]
    exact takeAppend _ _
  rw [hsub]
  rw [hform, localPathReplace_registry, uiCond_eq]
  rw [canonImport]
  simp [List.append_assoc]

/-- The external path capture on a specifier whose head is not `@`: the first
alternative `[^@][^'"]*` consumes greedily up to the closing quote. -/
theorem pathExt_hit (c : Char) (rt bt : List Char) (hc : c ≠ '@')
    (hrt : ∀ x ∈ rt, notQuote x = true) :
    ∃ junk, pathExtM (c :: (rt ++ dq :: bt)) = (dq :: bt) :: junk := by
  obtain ⟨junk, hj⟩ := mClassStar_run notQuote rt (dq :: bt) hrt
    (fun d dt hd => by cases hd; exact notQuote_dq)
  have hcb : (!(c = '@')) = true := by
    simp [hc]
  refine ⟨junk ++ (mCat (mChar (fun x => x = '@'))
    (mCat (mNla (mStr ((("/").data)))) (fun s => mClassStar notQuote s))) (c :: (rt ++ dq :: bt)), ?_⟩
  show (mCat (mChar (fun x => !(x = '@'))) (fun s => mClassStar notQuote s)) (c :: (rt ++ dq :: bt))
      ++ _ = _
  have h1 : (mChar (fun x => !(x = '@'))) (c :: (rt ++ dq :: bt)) = [rt ++ dq :: bt] := by
    simp [mChar, hcb]
  show ((mChar (fun x => !(x = '@'))) (c :: (rt ++ dq :: bt))).flatMap
      (fun s => mClassStar notQuote s) ++ _ = _
  rw [h1]
  simp [hj]

/-- The chosen match triple on a canonical external import statement. -/
theorem findTriple_ext_hit (c : Char) (rt bt : List Char) (hc : c ≠ '@')
    (hrt : ∀ x ∈ rt, notQuote x = true) :
    findTriple headM pathExtM quoteEndM (canonHead ++ (c :: (rt ++ dq :: bt)))
      = some ((c :: (rt ++ dq :: bt)), dq :: bt, bt) := by
  obtain ⟨junk, hj⟩ := pathExt_hit c rt bt hc hrt
  show (headM (canonHead ++ (c :: (rt ++ dq :: bt)))).findSome? _ = _
  rw [headM_canon]
  refine findSome?_cons_some _ _ _ _ ?_
  rw [hj]
  exact findSome?_cons_some _ _ _ _ rfl

end UpdateTs

namespace UpdateTs

set_option maxHeartbeats 1600000 in
/-- The full rewrite of a canonical import of an external specifier (one not
starting with `@/`; the `@scope/…` shape is covered separately by concrete
cases): the external pass maps the specifier through `externalPathReplace`
and the local pass then leaves the result alone. -/
theorem external_rewrite (c : Char) (rt : List Char) (hc : c ≠ '@')
    (hw : ∀ x ∈ (c :: rt), jsWS x = false ∧ x ≠ dq ∧ x ≠ sq) :
    transformImportsL (canonImport (c :: rt)) = canonImport (externalPathReplace (c :: rt)) := by
  have hrtq : ∀ x ∈ rt, notQuote x = true := by
    intro x hx
    obtain ⟨_, hdq, hsq⟩ := hw x (List.mem_cons_of_mem _ hx)
    simp [notQuote, hdq, hsq, dq, sq] at *
    exact ⟨hsq, hdq⟩
  have hkey : canonImport (c :: rt)
      = canonHead ++ (c :: (rt ++ dq :: ';' :: [])) := by
    rw [canonImport]
    simp
  rw [hkey]
  simp only [transformImportsL]
  have hhit := findTriple_ext_hit c rt ([';']) hc hrtq
  have hlt : ([';'] : List Char).length <
      (canonHead ++ (c :: (rt ++ dq :: ';' :: []))).length := by
    have h15 : canonHead.length = 15 := rfl
    simp
    omega
  rw [scanRepl_hit pathExtM externalPathReplace _ _ _ _ _ (by simp) hhit hlt]
  rw [scanRepl_id pathExtM externalPathReplace _ (noHit_semi pathExtM) _]
  have hsplit2 : (c :: (rt ++ dq :: ';' :: [])) = (c :: rt) ++ (dq :: ';' :: []) := by simp
  rw [hsplit2]
  have hsplit3 : canonHead ++ ((c :: rt) ++ (dq :: ';' :: []))
      = ((canonHead ++ (c :: rt)) ++ [dq]) ++ [';'] := by simp
  rw [hsplit3]
  rw [takeSubLen]
  have hpath : ((c :: rt) ++ (dq :: ';' :: [])).take
      (((c :: rt) ++ (dq :: ';' :: [])).length - (dq :: ';' :: []).length) = c :: rt :=
    takeSubLen _ _
  rw [hpath]
  have hsfx : (dq :: ';' :: []).take ((dq :: ';' :: []).length - ([';'] : List Char).length)
      = [dq] := rfl
  rw [hsfx]
  have hlast : jsLastIndexOf ((canonHead ++ (c :: rt)) ++ [dq]) (c :: rt)
      = (canonHead.length : Int) := by
    apply jsLastIndexOf_concat
    · simp
    · intro hmem
      exact absurd rfl (hw dq hmem).2.1
  rw [hlast]
  have hsub : jsSubstringTo ((canonHead ++ (c :: rt)) ++ [dq]) ((canonHead.length : Int))
      = canonHead := by
    show ((canonHead ++ _) ++ [dq]).take ((canonHead.length : Int)).toNat = canonHead
    rw [Int.toNat_natCast, List.append_assoc]
    exact takeAppend _ _
  rw [hsub]
  -- the local pass leaves the rewritten external specifier alone
  have hext : ∃ d rr, externalPathReplace (c :: rt) = d :: rr ∧ d ≠ '@' ∧
      (∀ x ∈ d :: rr, jsWS x = false) := by
    by_cases hcore : CORE_MODULES.contains (String.mk (c :: rt)) = true
    · refine ⟨c, rt, ?_, hc, fun x hx => (hw x hx).1⟩
      show (if CORE_MODULES.contains (String.mk (c :: rt)) then _ else _) = _
      rw [if_pos hcore]
    · refine ⟨'n', ("pm:").data ++ (c :: rt), ?_, by decide, ?_⟩
      · show (if CORE_MODULES.contains (String.mk (c :: rt)) then _ else _) = _
        rw [if_neg hcore]
        rfl
      · intro x hx
        rcases hx with _ | ⟨_, hx⟩
        · rfl
        rcases List.mem_append.1 hx with hx | hx
        · rcases hx with _ | ⟨_, hx⟩
          · rfl
          rcases hx with _ | ⟨_, hx⟩
          · rfl
          rcases hx with _ | ⟨_, hx⟩
          · rfl
          · exact absurd hx (List.not_mem_nil x)
        · exact (hw x hx).1
  obtain ⟨d, rr, hel, hd, hwd⟩ := hext
  rw [hel]
  have hjoin : ((canonHead ++ (d :: rr)) ++ [dq]) ++ [';']
      = canonHead ++ (d :: (rr ++ dq :: ';' :: [])) := by simp
  rw [hjoin]
  have hXw : ∀ x ∈ (d :: (rr ++ dq :: ';' :: [])), jsWS x = false := by
    intro x hx
    rcases hx with _ | ⟨_, hx⟩
    · exact hwd d (List.mem_cons_self _ _)
    rcases List.mem_append.1 hx with hx | hx
    · exact hwd x (List.mem_cons_of_mem _ hx)
    · rcases hx with _ | ⟨_, hx⟩
      · rfl
      rcases hx with _ | ⟨_, hx⟩
      · rfl
      · exact absurd hx (List.not_mem_nil x)
  rw [scanRepl_id pathLocalM localPathReplace _
        (noHit_canon pathLocalM _ (localMiss_canon d _ hd) hXw) _]
  rw [canonImport]
  simp

end UpdateTs

namespace UpdateTs

theorem bump_lookup_self (m : List (String × ImportInfo)) (k : String) :
    ((bump m k).lookup k).map ImportInfo.count
      = some ((((m.lookup k).map ImportInfo.count).getD 0) + 1) := by
  induction m with
  | nil => simp [bump, List.lookup]
  | cons p rest ih =>
      obtain ⟨a, info⟩ := p
      by_cases hka : k = a
      · subst hka
        simp [bump, List.lookup]
      · have hb : (k == a) = false := beq_eq_false_iff_ne.2 hka
        simp [bump, List.lookup, hka, hb, ih]

theorem bump_lookup_other (m : List (String × ImportInfo)) (k q : String) (h : q ≠ k) :
    (bump m k).lookup q = m.lookup q := by
  induction m with
  | nil =>
      have hb : (q == k) = false := beq_eq_false_iff_ne.2 h
      simp [bump, List.lookup, hb]
  | cons p rest ih =>
      obtain ⟨a, info⟩ := p
      by_cases hka : k = a
      · subst hka
        have hb : (q == k) = false := beq_eq_false_iff_ne.2 h
        simp [bump, List.lookup, hb]
      · by_cases hqa : q = a
        · subst hqa
          have hb : (q == q) = true := by simp
          simp [bump, hka, List.lookup]
        · have hb : (q == a) = false := beq_eq_false_iff_ne.2 hqa
          simp [bump, hka, List.lookup, hb, ih]

theorem bump_mem (m : List (String × ImportInfo)) (k : String) :
    ∀ p ∈ bump m k, p.1 = k ∨ p ∈ m := by
  induction m with
  | nil =>
      intro p hp
      simp [bump] at hp
      subst hp
      exact Or.inl rfl
  | cons q rest ih =>
      obtain ⟨a, info⟩ := q
      intro p hp
      by_cases hka : k = a
      · subst hka
        simp [bump] at hp
        rcases hp with hp | hp
        · subst hp; exact Or.inl rfl
        · exact Or.inr (List.mem_cons_of_mem _ hp)
      · simp [bump, hka] at hp
        rcases hp with hp | hp
        · subst hp; exact Or.inr (List.mem_cons_self _ _)
        · rcases ih p hp with h | h
          · exact Or.inl h
          · exact Or.inr (List.mem_cons_of_mem _ h)

theorem lookup_mem (m : List (String × ImportInfo)) (q : String) (i : ImportInfo)
    (h : m.lookup q = some i) : (q, i) ∈ m := by
  induction m with
  | nil => simp [List.lookup] at h
  | cons p rest ih =>
      obtain ⟨a, b⟩ := p
      by_cases hqa : q = a
      · subst hqa
        simp [List.lookup] at h
        subst h
        exact List.mem_cons_self _ _
      · have hb : (q == a) = false := beq_eq_false_iff_ne.2 hqa
        simp [List.lookup, hb] at h
        exact List.mem_cons_of_mem _ (ih h)

/-- One recorded specifier bumps exactly its own count by one. -/
theorem countOf_update (st : ImportState) (q s : String) :
    countOf (updateImport st s) q = countOf st q + (if q = s then 1 else 0) := by
  by_cases hqs : q = s
  · subst hqs
    simp only [countOf, updateImport]
    cases hc : classify q <;> simp [hc, bump_lookup_self]
  · simp only [countOf, updateImport]
    cases hcs : classify s <;> cases hcq : classify q <;>
      simp [hcs, hcq, bump_lookup_other _ _ _ hqs, hqs]

theorem wf_update (st : ImportState) (s : String) (h : wfState st) :
    wfState (updateImport st s) := by
  obtain ⟨hc, hl, he⟩ := h
  simp only [updateImport]
  cases hcs : classify s
  · exact ⟨fun p hp => by
        rcases bump_mem _ _ p hp with h1 | h1
        · rw [h1]; exact hcs
        · exact hc p h1,
      hl, he⟩
  · exact ⟨hc, fun p hp => by
        rcases bump_mem _ _ p hp with h1 | h1
        · rw [h1]; exact hcs
        · exact hl p h1,
      he⟩
  · exact ⟨hc, hl, fun p hp => by
        rcases bump_mem _ _ p hp with h1 | h1
        · rw [h1]; exact hcs
        · exact he p h1⟩

theorem countOf_processSpecs (l : List (List Char)) :
    ∀ (st : ImportState) (q : String),
    countOf (processSpecs st l) q = countOf st q + (l.map String.mk).count q := by
  induction l with
  | nil => intro st q; simp [processSpecs]
  | cons p rest ih =>
      intro st q
      have hstep : processSpecs st (p :: rest) = processSpecs (updateImport st (String.mk p)) rest := rfl
      rw [hstep, ih, countOf_update]
      simp [List.count_cons]
      by_cases hq : q = String.mk p
      · have hb : (String.mk p == q) = true := by
          rw [beq_iff_eq]; exact hq.symm
        simp [hq, hb]
        omega
      · have hb : (String.mk p == q) = false := beq_eq_false_iff_ne.2 (fun he => hq he.symm)
        simp [hq, hb]
        exact fun he => hq he.symm

theorem wf_processSpecs (l : List (List Char)) :
    ∀ (st : ImportState), wfState st → wfState (processSpecs st l) := by
  induction l with
  | nil => intro st h; exact h
  | cons p rest ih =>
      intro st h
      exact ih _ (wf_update st (String.mk p) h)

theorem transformFileL_state (st : ImportState) (c : List Char) :
    (transformFileL st c).1 = processSpecs st (extractSpecifiersL c) := rfl

theorem countOf_processFiles (contents : List (List Char)) :
    ∀ (st : ImportState) (q : String),
    countOf (processFiles st contents) q
      = countOf st q + ((contents.flatMap extractSpecifiersL).map String.mk).count q := by
  induction contents with
  | nil => intro st q; simp [processFiles]
  | cons c rest ih =>
      intro st q
      have hstep : processFiles st (c :: rest)
          = processFiles (processSpecs st (extractSpecifiersL c)) rest := rfl
      rw [hstep, ih, countOf_processSpecs]
      simp [List.count_append]
      omega

theorem wf_processFiles (contents : List (List Char)) :
    ∀ (st : ImportState), wfState st → wfState (processFiles st contents) := by
  induction contents with
  | nil => intro st h; exact h
  | cons c rest ih =>
      intro st h
      exact ih _ (wf_processSpecs _ _ h)

/-- A well-formed state records each specifier in at most one collection. -/
theorem oneBucket_of_wf (st : ImportState) (q : String) (h : wfState st) :
    inAtMostOneBucket st q := by
  obtain ⟨hc, hl, he⟩ := h
  have hcore : hasKey st.coreImports q → classify q = .core := by
    intro hk
    simp only [hasKey, Option.isSome_iff_exists] at hk
    obtain ⟨i, hi⟩ := hk
    exact hc (q, i) (lookup_mem _ _ _ hi)
  have hloc : hasKey st.localImports q → classify q = .localCat := by
    intro hk
    simp only [hasKey, Option.isSome_iff_exists] at hk
    obtain ⟨i, hi⟩ := hk
    exact hl (q, i) (lookup_mem _ _ _ hi)
  have hext : hasKey st.externalImports q → classify q = .externalCat := by
    intro hk
    simp only [hasKey, Option.isSome_iff_exists] at hk
    obtain ⟨i, hi⟩ := hk
    exact he (q, i) (lookup_mem _ _ _ hi)
  refine ⟨fun h1 => ⟨fun h2 => ?_, fun h2 => ?_⟩,
          fun h1 => ⟨fun h2 => ?_, fun h2 => ?_⟩,
          fun h1 => ⟨fun h2 => ?_, fun h2 => ?_⟩⟩
  · rw [hcore h1] at hext; exact absurd (hext h2) (by simp)
  · rw [hcore h1] at hloc; exact absurd (hloc h2) (by simp)
  · rw [hext h1] at hcore; exact absurd (hcore h2) (by simp)
  · rw [hext h1] at hloc; exact absurd (hloc h2) (by simp)
  · rw [hloc h1] at hcore; exact absurd (hcore h2) (by simp)
  · rw [hloc h1] at hext; exact absurd (hext h2) (by simp)

end UpdateTs

namespace UpdateTs

/-- Any match of the replace regexes starts with the literal `import`. -/
theorem findTriple_none_of_noImport (pm : M) (s : List Char)
    (h : (("import").data).isPrefixOf s = false) :
    findTriple headM pm quoteEndM s = none := by
  have hhead : headM s = [] := by
    show (importHead s).flatMap _ = []
    have h1 : importHead s = [] := by
      show (mStr ((("import").data)) s).flatMap wsPlus = []
      simp [mStr, h]
    rw [h1]; rfl
  simp [findTriple, hhead]

/-- If no match can start inside the first `k` characters, a replace pass
reproduces those characters verbatim. -/
theorem scanKeepsHead (pm : M) (f : List Char → List Char) :
    ∀ (fuel : Nat) (s : List Char) (k : Nat),
    (∀ i, i < k → (("import").data).isPrefixOf (s.drop i) = false) →
    ∃ r, scanRepl pm f fuel s = s.take k ++ r := by
  intro fuel
  induction fuel with
  | zero =>
      intro s k _
      cases s with
      | nil => exact ⟨[], by simp [scanRepl]⟩
      | cons c t => exact ⟨(c :: t).drop k, by simp [scanRepl]⟩
  | succ n ih =>
      intro s k h
      cases s with
      | nil => exact ⟨[], by simp [scanRepl]⟩
      | cons c t =>
          cases k with
          | zero => exact ⟨scanRepl pm f (n + 1) (c :: t), by simp⟩
          | succ j =>
              have h0 : (("import").data).isPrefixOf (c :: t) = false := by
                have := h 0 (by omega)
                simpa using this
              have hnone := findTriple_none_of_noImport pm _ h0
              have hstep : scanRepl pm f (n + 1) (c :: t) = c :: scanRepl pm f n t := by
                simp [scanRepl, hnone]
              obtain ⟨r, hr⟩ := ih t j (fun i hi => by
                have := h (i + 1) (by omega)
                simpa using this)
              exact ⟨r, by simp [hstep, hr]⟩

theorem isPre_append_of_isPre (pat l r : List Char) (h : pat.isPrefixOf l = true) :
    pat.isPrefixOf (l ++ r) = true := by
  have h1 := List.isPrefixOf_iff_prefix.1 h
  exact List.isPrefixOf_iff_prefix.2 (h1.trans (List.prefix_append l r))

theorem containsSeq_of_head (s pat : List Char) (h : pat.isPrefixOf s = true) :
    containsSeq s pat = true :=
  (containsSeq_iff _ _).2 ⟨0, by simpa using h⟩

set_option maxHeartbeats 1600000 in
/-- No occurrence of `import` starts inside the prepended DOM header, whatever
follows it. -/
theorem domHeader_no_import (tail : List Char) :
    ∀ i, i < 29 → (("import").data).isPrefixOf ((domHeader ++ tail).drop i) = false := by
  intro i hi
  have hlen : domHeader.length = 29 := rfl
  have hdrop : (domHeader ++ tail).drop i = domHeader.drop i ++ tail :=
    dropAppendLe _ _ i (by omega)
  rw [hdrop]
  interval_cases i
  · rfl
  · rfl
  · rfl
  · rfl
  · rfl
  · rfl
  · rfl
  · rfl
  · rfl
  · rfl
  · rfl
  · rfl
  · rfl
  · rfl
  · rfl
  · rfl
  · rfl
  · rfl
  · rfl
  · rfl
  · rfl
  · rfl
  · rfl
  · rfl
  · rfl
  · rfl
  · rfl
  · rfl
  · rfl

/-- `transformImports` keeps a prepended DOM header intact: no match of either
replace pass can start inside it. -/
theorem transform_keeps_header (c : List Char) :
    ∃ r, transformImportsL (domHeader ++ c) = domHeader ++ r := by
  have hlen : domHeader.length = 29 := rfl
  obtain ⟨r1, hr1⟩ := scanKeepsHead pathExtM externalPathReplace
    ((domHeader ++ c).length + 1) (domHeader ++ c) 29 (domHeader_no_import c)
  have htake : (domHeader ++ c).take 29 = domHeader := by
    rw [← hlen]; exact takeAppend _ _
  rw [htake] at hr1
  obtain ⟨r2, hr2⟩ := scanKeepsHead pathLocalM localPathReplace
    ((domHeader ++ r1).length + 1) (domHeader ++ r1) 29 (domHeader_no_import r1)
  have htake2 : (domHeader ++ r1).take 29 = domHeader := by
    rw [← hlen]; exact takeAppend _ _
  rw [htake2] at hr2
  refine ⟨r2, ?_⟩
  show scanRepl pathLocalM localPathReplace _ (scanRepl pathExtM externalPathReplace _ _) = _
  rw [hr1, hr2]

/-- The directory fold copies exactly the directories whose outcome is `ok`,
in order. -/
theorem processDirs_copied (outcome : String → FsOutcome) :
    ∀ (ds : List String) (acc : RunLog),
    (ds.foldl (fun a d => processDir a d (outcome d)) acc).copied
      = acc.copied ++ ds.filter (fun d => decide (outcome d = .ok)) := by
  intro ds
  induction ds with
  | nil => intro acc; simp
  | cons d rest ih =>
      intro acc
      show (rest.foldl _ (processDir acc d (outcome d))).copied = _
      rw [ih]
      cases h : outcome d <;> simp [processDir, h, List.filter_cons]

/-- The fold only appends to the log. -/
theorem processDirs_logs_mono (outcome : String → FsOutcome) :
    ∀ (ds : List String) (acc : RunLog) (x : String), x ∈ acc.logs →
    x ∈ (ds.foldl (fun a d => processDir a d (outcome d)) acc).logs := by
  intro ds
  induction ds with
  | nil => intro acc x hx; exact hx
  | cons d rest ih =>
      intro acc x hx
      refine ih (processDir acc d (outcome d)) x ?_
      cases h : outcome d <;> simp [processDir, hx]

/-- Every non-NotFound error is logged with its message and the fold goes
on. -/
theorem processDirs_logs_err (outcome : String → FsOutcome) :
    ∀ (ds : List String) (acc : RunLog) (d : String) (m : String), d ∈ ds →
    outcome d = .err m →
    ("Error processing " ++ d ++ ": " ++ m)
      ∈ (ds.foldl (fun a d => processDir a d (outcome d)) acc).logs := by
  intro ds
  induction ds with
  | nil => intro acc d m hd; exact absurd hd (List.not_mem_nil d)
  | cons e rest ih =>
      intro acc d m hd herr
      rcases List.mem_cons.1 hd with hd | hd
      · subst hd
        refine processDirs_logs_mono outcome rest (processDir acc d (outcome d)) _ ?_
        rw [herr]
        simp [processDir]
      · exact ih (processDir acc e (outcome e)) d m hd herr

end UpdateTs

namespace UpdateTs

/-- C1 (counterexample): the claim states `transformImports` leaves external
specifiers textually identical, in particular that
`import * as RadixUI from "@radix-ui/react-dialog";` comes through
unchanged; the shipped `transformImports` changes it. -/
theorem c1_external_not_left_untouched :
    transformImports ("import * as RadixUI from \x22@radix-ui/react-dialog\x22;")
      ≠ ("import * as RadixUI from \x22@radix-ui/react-dialog\x22;") := by
  decide

/-- C1 (amended): `transformImports` does rewrite external specifiers: a
canonical import of a specifier not starting with `@` is mapped through
`externalPathReplace`, which keeps the four allow-listed names and adds the
`npm:` scheme prefix to every other external; the claim's example gains the
prefix. -/
theorem c1_external_npm_added (c : Char) (rt : List Char) (hc : c ≠ '@')
    (hw : ∀ x ∈ (c :: rt), jsWS x = false ∧ x ≠ dq ∧ x ≠ sq) :
    transformImportsL (canonImport (c :: rt)) = canonImport (externalPathReplace (c :: rt)) ∧
    externalPathReplace (c :: rt)
      = (if CORE_MODULES.contains (String.mk (c :: rt)) then c :: rt
          else ("npm:").data ++ (c :: rt)) ∧
    transformImports ("import * as RadixUI from \x22@radix-ui/react-dialog\x22;")
      = ("import * as RadixUI from \x22npm:@radix-ui/react-dialog\x22;") :=
  ⟨external_rewrite c rt hc hw, rfl, by decide⟩

/-- C1 witness: the amended theorem at the external specifier `cva`. -/
theorem c1_external_npm_added_witness :
    (('c' : Char) ≠ '@' ∧ ∀ x ∈ ('c' :: ("va").data), jsWS x = false ∧ x ≠ dq ∧ x ≠ sq) ∧
    transformImportsL (canonImport ('c' :: ("va").data))
      = canonImport (externalPathReplace ('c' :: ("va").data)) :=
  ⟨⟨by decide, by decide⟩, (c1_external_npm_added 'c' (("va").data) (by decide) (by decide)).1⟩

/-- A directory-outcome assignment with a permission error on `hooks` and
success elsewhere. -/
def permissionDeniedRun : String → FsOutcome := fun d =>
  if d = "hooks" then FsOutcome.err ("PermissionDenied, read access to hooks") else FsOutcome.ok

/-- C2 (counterexample): with the registry present and a permission error on
`hooks`, the run logs the error, still copies `lib` and `ui`, and the process
exits 0 — not the fatal non-zero abort the claim states. -/
theorem c2_error_does_not_abort :
    (runMain true permissionDeniedRun).1 = 0 ∧
    (runMain true permissionDeniedRun).2.copied = ["lib", "ui"] ∧
    ("Error processing hooks: PermissionDenied, read access to hooks")
      ∈ (runMain true permissionDeniedRun).2.logs := by
  refine ⟨rfl, by decide, by decide⟩

/-- C2 (amended): a filesystem error other than a missing directory is caught
inside the per-directory loop: it is logged with its message, the walk
continues with the remaining directories (exactly the `ok` directories get
copied), and the process exits 0. -/
theorem c2_errors_logged_and_run_continues (outcome : String → FsOutcome) :
    (runMain true outcome).1 = 0 ∧
    (runMain true outcome).2.copied
      = DIRECTORIES.filter (fun d => decide (outcome d = FsOutcome.ok)) ∧
    ∀ d m, d ∈ DIRECTORIES → outcome d = FsOutcome.err m →
      ("Error processing " ++ d ++ ": " ++ m) ∈ (runMain true outcome).2.logs := by
  refine ⟨rfl, ?_, ?_⟩
  · show ({ (DIRECTORIES.foldl (fun acc d => processDir acc d (outcome d))
        { logs := ["Starting shadcn/ui components update..."], copied := [] }) with
          logs := _ } : RunLog).copied = _
    rw [processDirs_copied]
    rfl
  · intro d m hd herr
    show ("Error processing " ++ d ++ ": " ++ m) ∈
      ({ (DIRECTORIES.foldl (fun acc d => processDir acc d (outcome d))
        { logs := ["Starting shadcn/ui components update..."], copied := [] }) with
          logs := (DIRECTORIES.foldl (fun acc d => processDir acc d (outcome d))
            { logs := ["Starting shadcn/ui components update..."], copied := [] }).logs
            ++ ["shadcn/ui component update completed!"] } : RunLog).logs
    exact List.mem_append.2 (Or.inl (processDirs_logs_err outcome DIRECTORIES _ d m hd herr))

/-- C2 witness: the amended theorem at the permission-error assignment. -/
theorem c2_errors_logged_witness :
    ("hooks" ∈ DIRECTORIES ∧
      permissionDeniedRun "hooks" = FsOutcome.err ("PermissionDenied, read access to hooks")) ∧
    (runMain true permissionDeniedRun).1 = 0 ∧
    ("Error processing hooks: PermissionDenied, read access to hooks")
      ∈ (runMain true permissionDeniedRun).2.logs := by
  have h := c2_errors_logged_and_run_continues permissionDeniedRun
  refine ⟨⟨by decide, by decide⟩, h.1, ?_⟩
  have := h.2.2 "hooks" ("PermissionDenied, read access to hooks") (by decide) (by decide)
  simpa using this

/-- C3 (spec-modelled, see `determineFileExtension`): when the logical path of
the remapped specifier is in the File Index with recorded extension `.tsx`,
the final rewriter appends exactly `.tsx` — never `.ts`. -/
theorem c3_index_tsx_appended (idx : List (String × String)) (p : String)
    (h : idx.lookup (stripAliasToLogical (remapLocalSpecifier p)) = some (".tsx")) :
    finalRewriteSpecifier idx p = remapLocalSpecifier p ++ (".tsx") ∧
    (".tsx" : String) ≠ (".ts") := by
  constructor
  · show remapLocalSpecifier p ++ determineFileExtension idx (remapLocalSpecifier p) = _
    simp only [determineFileExtension]
    rw [h]
  · decide

set_option maxRecDepth 4000 in
/-- C3 witness: the index and specifier of `scripts/update.test.ts`
(`hooks/use-mobile ↦ .tsx`, specifier `@/hooks/use-mobile`). -/
theorem c3_index_tsx_appended_witness :
    ([("hooks/use-mobile", ".tsx")].lookup
        (stripAliasToLogical (remapLocalSpecifier ("@/hooks/use-mobile"))) = some (".tsx")) ∧
    finalRewriteSpecifier [("hooks/use-mobile", ".tsx")] ("@/hooks/use-mobile")
      = remapLocalSpecifier ("@/hooks/use-mobile") ++ (".tsx") :=
  ⟨by decide,
    (c3_index_tsx_appended [("hooks/use-mobile", ".tsx")] ("@/hooks/use-mobile") (by decide)).1⟩

/-- C4 (counterexample): `transformImports` is not a no-op on its own output.
The input line occurs verbatim in the repository's test files; its rewritten
form still matches the local trigger pattern, so a second application changes
it again. -/
theorem c4_not_idempotent_on_own_output :
    transformImportsL (transformImportsL
        (("import { Button } from \x22@/registry/default/ui/button\x22;").data))
      ≠ transformImportsL (("import { Button } from \x22@/registry/default/ui/button\x22;").data) := by
  decide

/-- C4 (amended): rerunning `transformImports` on its own output is not a
no-op in practice: an already-rewritten local specifier under `@/default/`
matches the generic local rule again, and an already-prefixed `npm:` external
matches the external trigger again. -/
theorem c4_second_application_rewrites_again :
    transformImports ("import { Button } from \x22@/registry/default/ui/button\x22;")
      = ("import { Button } from \x22@/default/ui/button.tsx\x22;") ∧
    transformImports ("import { Button } from \x22@/default/ui/button.tsx\x22;")
      = ("import { Button } from \x22@/defaultdefault/ui/button.tsx.tsx\x22;") ∧
    transformImports ("import * as RadixUI from \x22npm:@radix-ui/react-dialog\x22;")
      = ("import * as RadixUI from \x22npm:npm:@radix-ui/react-dialog\x22;") :=
  ⟨by decide, by decide, by decide⟩

/-- C5 (counterexample): the extraction stage does not return the text it
received: on marker-free input the returned text has the DOM reference
prepended. -/
theorem c5_text_not_returned_unchanged :
    (transformFileL emptyState (("import X from \x22react\x22;\n").data)).2
      ≠ ("import X from \x22react\x22;\n").data := by
  decide

/-- C5 (amended): for every input text, `transformFile` returns the input
with the DOM header prepended when the marker is absent and the input itself
when present; the frequency-map side effects never alter the returned text
(it is independent of the map state). -/
theorem c5_text_is_input_plus_header (st st2 : ImportState) (c : List Char) :
    (transformFileL st c).2 = (if containsSeq c domMarker then c else domHeader ++ c) ∧
    (transformFileL st c).2 = (transformFileL st2 c).2 :=
  ⟨rfl, rfl⟩

/-- C6: a local specifier `@/registry/default/P` is rewritten to
`@/default/P` with `.tsx` appended exactly when `P` has a `ui` directory
segment and `.ts` otherwise; the spec's end-to-end example holds. -/
theorem c6_registry_specifier_rewrite (P : List Char) (h : wfSpec P) :
    transformImportsL (canonImport ((("@/registry/default/").data) ++ P))
      = canonImport ((("@/default/").data) ++ P ++
          (if (("ui/").data).isPrefixOf P || containsSeq P (("/ui/").data)
            then (".tsx").data else (".ts").data)) ∧
    transformImports ("import { Button } from \x22@/registry/default/ui/button\x22;")
      = ("import { Button } from \x22@/default/ui/button.tsx\x22;") :=
  ⟨registry_rewrite P h, by decide⟩

/-- C6 witness: the theorem at `P = ui/button`. -/
theorem c6_registry_specifier_rewrite_witness :
    wfSpec (("ui/button").data) ∧
    transformImportsL (canonImport ((("@/registry/default/").data) ++ ("ui/button").data))
      = canonImport ((("@/default/").data) ++ ("ui/button").data ++
          (if (("ui/").data).isPrefixOf (("ui/button").data)
              || containsSeq (("ui/button").data) (("/ui/").data)
            then (".tsx").data else (".ts").data)) :=
  ⟨⟨by decide, by decide⟩,
    (c6_registry_specifier_rewrite (("ui/button").data) ⟨by decide, by decide⟩).1⟩

/-- C7: the exact specifier `@/lib/utils` always becomes
`@/default/lib/utils.ts`: at callback level, on the spec's end-to-end
example, and in a canonical statement.  The shipped `transformImports`
consults no file-extension index, so no index content can influence this. -/
theorem c7_lib_utils_always_ts :
    localPathReplace (("@/lib/utils").data) = ("@/default/lib/utils.ts").data ∧
    transformImports ("import { cn } from \x22@/lib/utils\x22;")
      = ("import { cn } from \x22@/default/lib/utils.ts\x22;") ∧
    transformImportsL (canonImport (("@/lib/utils").data))
      = canonImport (("@/default/lib/utils.ts").data) :=
  ⟨by decide, by decide, by decide⟩

/-- C8: every allow-listed core specifier is left textually identical: the
whole canonical import is unchanged and the external callback returns the
specifier itself, so no `npm:` or other prefix is added. -/
theorem c8_core_modules_untouched (s : String) (h : s ∈ CORE_MODULES) :
    transformImportsL (canonImport s.data) = canonImport s.data ∧
    externalPathReplace s.data = s.data := by
  have h4 : s = "react" ∨ s = "clsx" ∨ s = "tailwind-merge" ∨ s = "lucide-react" := by
    simpa [CORE_MODULES] using h
  rcases h4 with rfl | rfl | rfl | rfl
  · exact ⟨by decide, by decide⟩
  · exact ⟨by decide, by decide⟩
  · exact ⟨by decide, by decide⟩
  · exact ⟨by decide, by decide⟩

/-- C8 witness: the theorem at `react`. -/
theorem c8_core_modules_untouched_witness :
    ("react" : String) ∈ CORE_MODULES ∧
    transformImportsL (canonImport (("react").data)) = canonImport (("react").data) :=
  ⟨by decide, (c8_core_modules_untouched ("react") (by decide)).1⟩

/-- C9: from any well-formed state (the empty start state is), after scanning
any files each specifier is recorded in at most one collection, and its
stored count equals its previous count plus exactly the number of extraction
matches of that exact text — one per occurrence, never decreasing. -/
theorem c9_count_invariant (st : ImportState) (contents : List (List Char)) (q : String)
    (h : wfState st) :
    wfState (processFiles st contents) ∧
    inAtMostOneBucket (processFiles st contents) q ∧
    countOf (processFiles st contents) q
      = countOf st q + ((contents.flatMap extractSpecifiersL).map String.mk).count q ∧
    countOf st q ≤ countOf (processFiles st contents) q := by
  have hwf := wf_processFiles contents st h
  have hcount := countOf_processFiles contents st q
  exact ⟨hwf, oneBucket_of_wf _ q hwf, hcount, by omega⟩

/-- C9 witness: two concrete files mentioning `react` twice. -/
theorem c9_count_invariant_witness :
    wfState emptyState ∧
    countOf (processFiles emptyState
        [("import { cn } from \x22@/lib/utils\x22\nimport X from \x22react\x22\n").data,
         ("import Y from \x22react\x22\n").data]) ("react")
      = countOf emptyState ("react")
        + (([("import { cn } from \x22@/lib/utils\x22\nimport X from \x22react\x22\n").data,
            ("import Y from \x22react\x22\n").data].flatMap extractSpecifiersL).map String.mk).count
            ("react") ∧
    countOf (processFiles emptyState
        [("import { cn } from \x22@/lib/utils\x22\nimport X from \x22react\x22\n").data,
         ("import Y from \x22react\x22\n").data]) ("react") = 2 := by
  have hwf : wfState emptyState :=
    ⟨fun p hp => absurd hp (List.not_mem_nil p),
     fun p hp => absurd hp (List.not_mem_nil p),
     fun p hp => absurd hp (List.not_mem_nil p)⟩
  refine ⟨hwf, (c9_count_invariant emptyState _ ("react") hwf).2.2.1, by decide⟩

/-- C10: the per-file stage always returns text containing the DOM reference
marker — input already containing it passes through without the prepend,
anything else gets the exact header prepended — and the import rewriting
applied before the file is written preserves the prepended header, so the
written text carries the directive. -/
theorem c10_dom_reference_always_present (st : ImportState) (c : List Char) :
    (transformFileL st c).2 = (if containsSeq c domMarker then c else domHeader ++ c) ∧
    containsSeq ((transformFileL st c).2) domMarker = true ∧
    containsSeq (transformImportsL (domHeader ++ c)) domMarker = true := by
  have h1 : (transformFileL st c).2
      = (if containsSeq c domMarker then c else domHeader ++ c) := rfl
  refine ⟨h1, ?_, ?_⟩
  · rw [h1]
    by_cases h : containsSeq c domMarker = true
    · rw [if_pos h]; exact h
    · rw [if_neg h]
      exact containsSeq_of_head _ _ (isPre_append_of_isPre _ _ _ (by decide))
  · obtain ⟨r, hr⟩ := transform_keeps_header c
    rw [hr]
    exact containsSeq_of_head _ _ (isPre_append_of_isPre _ _ _ (by decide))

end UpdateTs
